import Mathlib

/-
Verification of the jsonschema-gen tool (src/cmd/jsonschema-gen/pinned/pinned.go).

Strings are modelled as `List Char`.  Go compares and scans strings byte-wise
over UTF-8; on the ASCII data this tool manipulates (go.mod keywords, version
strings, import paths, file suffixes) byte-wise and character-wise operations
coincide, so the model uses characters throughout.
-/

/-- Character list of a string literal. -/
def str (s : String) : List Char := s.data

/-- Model of Go `strings.Split(s, "\n")` on char lists: splits at every
newline, keeping empty parts, and yields one (empty) part for empty input. -/
def splitNl : List Char → List (List Char)
  | [] => [[]]
  | c :: cs =>
    if c = '\n' then [] :: splitNl cs
    else
      match splitNl cs with
      | [] => [[c]]
      | t :: ts => (c :: t) :: ts

/-- ASCII whitespace recognised by Go `strings.TrimSpace` (the tool only feeds
it ASCII go.mod lines). -/
def isGoSpace (c : Char) : Bool :=
  c = ' ' || c = '\t' || c = '\n' || c = '\x0b' || c = '\x0c' || c = '\r'

/-- Model of Go `strings.TrimSpace` on char lists. -/
def trimSpace (s : List Char) : List Char :=
  ((s.dropWhile isGoSpace).reverse.dropWhile isGoSpace).reverse

/-- Go string comparison `a < b`: byte-wise lexicographic, which on ASCII
coincides with character-wise lexicographic comparison. -/
def lexLt : List Char → List Char → Bool
  | [], [] => false
  | [], _ :: _ => true
  | _ :: _, [] => false
  | a :: as, b :: bs => if a < b then true else if b < a then false else lexLt as bs

/-- One line of the go.mod scan (pinned.go lines 253-258): a `module ` line sets
the module name, a `go ` line sets the version, both trimmed; other lines leave
the accumulator unchanged. -/
def goModLine (acc : List Char × List Char) (line : List Char) : List Char × List Char :=
  if (str "module ").isPrefixOf line then
    (trimSpace (line.drop (str "module ").length), acc.2)
  else if (str "go ").isPrefixOf line then
    (acc.1, trimSpace (line.drop (str "go ").length))
  else acc

/-- Line loop of `parseGoMod` (pinned.go lines 253-263): scan lines in order,
breaking as soon as both the module name and the version are non-empty. -/
def scanGoModLines : List (List Char) → List Char × List Char → List Char × List Char
  | [], acc => acc
  | line :: rest, acc =>
    let acc2 := goModLine acc line
    if acc2.1 ≠ [] ∧ acc2.2 ≠ [] then acc2 else scanGoModLines rest acc2

/-- Model of `parseGoMod` (pinned.go lines 247-266) applied to the go.mod file
contents; returns (module name, go version), each possibly empty. -/
def parseGoMod (content : List Char) : List Char × List Char :=
  scanGoModLines (splitNl content) ([], [])

/-- Fatal message for an empty module name (pinned.go line 105). -/
def modNameMissingMsg : List Char := str "module name not found in go.mod"

/-- Fatal message for a too-old go version (pinned.go line 108). -/
def verFloorMsg : List Char := str "go mod version must be at least 1.18"

/-- Checks on the parsed go.mod (pinned.go lines 104-109): an empty module name
is fatal, then a version lexically below "1.18" is fatal; `some msg` is the
fatal diagnostic routed to `fail`, `none` means the checks pass. -/
def goModChecks (modName goVer : List Char) : Option (List Char) :=
  if modName = [] then some modNameMissingMsg
  else if lexLt goVer (str "1.18") then some verFloorMsg
  else none

/-- Normalization of `filepath.Rel`'s result (pinned.go lines 115-117): the
current-directory answer "." becomes the empty string. -/
def normalizeRel (relPath : List Char) : List Char :=
  if relPath = str "." then [] else relPath

/-- Import-path composition (pinned.go lines 119-122). -/
def importPathOf (modName relPath : List Char) : List Char :=
  if relPath ≠ [] then modName ++ '/' :: relPath else modName

/-- Model of `filepath.Join(a, b)` for a clean base and a clean, slash-free,
non-empty element, which is the only way the tool uses it. -/
def joinPath (a b : List Char) : List Char := a ++ '/' :: b

/-- Fixed temporary-directory name (pinned.go line 54). -/
def tmpDirName : List Char := str "jsonschema-gen"

/-- Vendored-tree directory name (pinned.go line 55). -/
def vendorDirName : List Char := str "vendored"

/-- Dependency-manifest file name (pinned.go line 53). -/
def depsFileName : List Char := str "deps.txt"

/-- Temporary-workspace path (pinned.go line 134).  The second argument models
the identity of the invocation; the code derives the path from the target
file's directory and the fixed name only, so the invocation identity is unused. -/
def tmpDirFor (fileDir : List Char) (_invocation : Nat) : List Char :=
  joinPath fileDir tmpDirName

/-- C4 counterexample: the claim says the version string "1.9" is rejected, but
under the code's lexical comparison "1.9" is not below "1.18", so the check
passes for "1.9" (with a non-empty module name). -/
theorem goVer_one_nine_accepted :
    goModChecks (str "example.com/app") (str "1.9") = none ∧
    lexLt (str "1.9") (str "1.18") = false := by
  decide

/-- C4 (amended): with a non-empty module name, the tool fails fatally on the
version exactly when the parsed version is lexically below "1.18"; "1.18" and
"1.9" are both accepted (lexically not below the floor), while "1.100" is
rejected even though it is semantically newer than 1.18. -/
theorem goVer_lexical_floor (modName goVer : List Char) (h : modName ≠ []) :
    (goModChecks modName goVer = some verFloorMsg ↔ lexLt goVer (str "1.18") = true) ∧
    goModChecks (str "m") (str "1.18") = none ∧
    goModChecks (str "m") (str "1.9") = none ∧
    goModChecks (str "m") (str "1.100") = some verFloorMsg := by
  refine ⟨?_, by decide, by decide, by decide⟩
  unfold goModChecks
  rw [if_neg h]
  cases hlt : lexLt goVer (str "1.18") <;> simp [hlt]

/-- C4 witness: the amended theorem applied at module name "m" and version
"1.100", which the lexical floor rejects. -/
theorem goVer_lexical_floor_witness :
    goModChecks (str "m") (str "1.100") = some verFloorMsg :=
  (goVer_lexical_floor (str "m") (str "1.100") (by decide)).2.2.2

/-- C5: the computed import path equals the module name joined with the
relative path by "/" when the normalized relative path is non-empty, and the
module name alone otherwise; the current-directory relative path "." is
normalized to the empty string. -/
theorem importPath_composition (modName rel : List Char) :
    importPathOf modName (normalizeRel rel) =
      (if normalizeRel rel = [] then modName
       else modName ++ str "/" ++ normalizeRel rel) ∧
    normalizeRel (str ".") = [] ∧
    normalizeRel (str "pkg/models") = str "pkg/models" := by
  refine ⟨?_, by decide, by decide⟩
  by_cases h : normalizeRel rel = []
  · simp [importPathOf, h]
  · simp only [importPathOf, h, if_neg, ne_eq, not_false_iff, if_true]
    rw [List.append_assoc]
    rfl

/-- C8 counterexample: two distinct invocations (identities 0 and 1) targeting
the same directory are given the very same workspace directory path, so the
workspace is not fresh per invocation. -/
theorem tmpDir_reused_across_invocations :
    tmpDirFor (str "/home/user/proj") 0 = tmpDirFor (str "/home/user/proj") 1 ∧
    (0 : Nat) ≠ 1 := by
  decide

/-- C8 (amended): the workspace path is a deterministic function of the target
file's directory, namely the fixed name "jsonschema-gen" joined under it; it
does not depend on the invocation, so invocations sharing a target directory
operate on the same workspace path. -/
theorem tmpDir_fixed_name (fileDir : List Char) (i j : Nat) :
    tmpDirFor fileDir i = joinPath fileDir (str "jsonschema-gen") ∧
    tmpDirFor fileDir i = tmpDirFor fileDir j :=
  ⟨rfl, rfl⟩

/-- Result of running the child process (pinned.go lines 152-165): either an
error starting it, or an exit code, together with the captured output buffers. -/
structure ExecResult where
  startErr : Option (List Char)
  exitCode : Nat
  stdout : List Char
  stderr : List Char
deriving DecidableEq

/-- Decimal rendering of a Nat, as Go prints exit codes. -/
def natDecimal (n : Nat) : List Char := Nat.toDigits 10 n

/-- Error value of `cmd.Run()` (pinned.go line 165): a start failure yields its
message; otherwise a non-zero exit yields "exit status N", and exit 0 yields no
error regardless of what the child wrote to standard error. -/
def cmdRunErr (r : ExecResult) : Option (List Char) :=
  match r.startErr with
  | some e => some e
  | none =>
    if r.exitCode = 0 then none
    else some (str "exit status " ++ natDecimal r.exitCode)

/-- Reported outcome of one child-process run. -/
inductive Report where
  | success (payload : List Char)
  | failure (payload : List Char)
deriving DecidableEq

/-- Success discriminator for a report. -/
def Report.isOk : Report → Bool
  | .success _ => true
  | .failure _ => false

/-- Child-process result reporting (pinned.go lines 165-175): a `cmd.Run()`
error is fatal with the error message, extended by a newline and the captured
standard error when that buffer is non-empty; otherwise the captured standard
output is the success payload. -/
def executorReport (r : ExecResult) : Report :=
  match cmdRunErr r with
  | none => .success r.stdout
  | some e => .failure (if r.stderr.length > 0 then e ++ '\n' :: r.stderr else e)

/-- C1 counterexample: a child that starts, exits 0 and writes to standard
error is reported as a success with the captured standard output, where the
claim demands a failure. -/
theorem exit0_nonempty_stderr_is_success :
    executorReport (ExecResult.mk none 0 (str "schema-output") (str "warning: x")) =
      Report.success (str "schema-output") ∧
    str "warning: x" ≠ [] := by
  decide

/-- C1 (amended): the run is reported as a success exactly when the child
process starts and exits with code 0, regardless of its standard error; on
failure the payload is the process error message, followed by a newline and the
captured standard error when that is non-empty. -/
theorem executor_success_iff (r : ExecResult) :
    (Report.isOk (executorReport r) = true ↔ r.startErr = none ∧ r.exitCode = 0) ∧
    (∀ e, cmdRunErr r = some e →
      executorReport r =
        Report.failure (if r.stderr = [] then e else e ++ '\n' :: r.stderr)) := by
  obtain ⟨se, code, out, errBuf⟩ := r
  constructor
  · cases se with
    | some e => simp [executorReport, cmdRunErr, Report.isOk]
    | none =>
      by_cases h : code = 0 <;>
        simp [executorReport, cmdRunErr, h, Report.isOk]
  · intro e he
    simp only [executorReport, he]
    cases errBuf with
    | nil => simp
    | cons c cs => simp

/-- C1 witness: the amended theorem applied to a run that exits with code 2 and
standard error "boom". -/
theorem executor_success_iff_witness :
    executorReport (ExecResult.mk none 2 [] (str "boom")) =
      Report.failure (str "exit status 2" ++ '\n' :: str "boom") := by
  have h := (executor_success_iff (ExecResult.mk none 2 [] (str "boom"))).2
    (str "exit status 2") (by decide)
  simpa using h

/-- Shape of what one invocation writes to standard error on failure. -/
inductive StderrShape where
  | usageMessage
  | errorObject (msg : List Char)
deriving DecidableEq

/-- Discriminator for the structured JSON error object. -/
def StderrShape.isErrorObject : StderrShape → Bool
  | .errorObject _ => true
  | .usageMessage => false

/-- Caller-visible outcome of one invocation. -/
inductive RunOutcome where
  | failed (stderr : StderrShape) (exitCode : Nat)
  | ok (stdout : List Char)
deriving DecidableEq

/-- Top-level control flow of `main` as visible to the caller: a missing file
path or type name prints the flag usage message and exits 1 (pinned.go lines
77-80), every later fatal condition is routed through `fail`, which encodes the
single-field JSON error object and exits 1 (lines 291-294), and success prints
the captured standard output (line 175).  The pipeline after argument
validation is abstracted by its result: a fatal message or the stdout payload. -/
def mainOutcome (filePath typeName : List Char)
    (pipeline : Except (List Char) (List Char)) : RunOutcome :=
  if filePath = [] ∨ typeName = [] then .failed .usageMessage 1
  else
    match pipeline with
    | .error msg => .failed (.errorObject msg) 1
    | .ok out => .ok out

/-- C6 counterexample: with the file argument missing, the tool exits 1 but
writes the usage message, not the single-field JSON error object. -/
theorem missing_arg_writes_usage :
    mainOutcome [] (str "MyType") (Except.error (str "unused")) =
      RunOutcome.failed StderrShape.usageMessage 1 ∧
    StderrShape.isErrorObject StderrShape.usageMessage = false := by
  decide

/-- C6 (amended): every failure after argument validation is reported as the
single-field JSON error object on standard error with exit code 1, while a
missing required argument is reported as the usage message, also with exit
code 1. -/
theorem failures_routed_through_fail (filePath typeName msg : List Char)
    (hf : filePath ≠ []) (ht : typeName ≠ []) :
    mainOutcome filePath typeName (Except.error msg) =
      RunOutcome.failed (StderrShape.errorObject msg) 1 ∧
    mainOutcome [] typeName (Except.error msg) =
      RunOutcome.failed StderrShape.usageMessage 1 ∧
    mainOutcome filePath [] (Except.error msg) =
      RunOutcome.failed StderrShape.usageMessage 1 := by
  refine ⟨?_, ?_, ?_⟩ <;> simp [mainOutcome, hf, ht]

/-- C6 witness: the amended theorem applied at concrete arguments. -/
theorem failures_routed_through_fail_witness :
    mainOutcome (str "a.go") (str "T") (Except.error (str "boom")) =
      RunOutcome.failed (StderrShape.errorObject (str "boom")) 1 :=
  (failures_routed_through_fail (str "a.go") (str "T") (str "boom")
    (by decide) (by decide)).1

/-- Filesystem-relevant events of `main` from workspace creation to exit. -/
inductive Ev where
  | mkTmp
  | writeMain
  | copyVendor
  | rewriteImports
  | runChild
  | removeTmp
  | printSchema
  | failExit
deriving DecidableEq

/-- Event trace of `main` from `os.MkdirAll` to exit (pinned.go lines 137-175).
Each argument is the error result of the corresponding step, in program order:
make the workspace, create the entry-point file, render the template, copy the
vendored snapshot, rewrite imports, run the child process, remove the
workspace.  Every step error is routed to `fail`, which exits without removing
the workspace; `os.RemoveAll` runs only after a successful child run, before
the schema is printed. -/
def mainTailTrace (eMk eCreate eTempl eCopy eRename eRun eRemove : Option (List Char)) :
    List Ev :=
  match eMk with
  | some _ => [Ev.failExit]
  | none =>
    Ev.mkTmp ::
    match eCreate with
    | some _ => [Ev.failExit]
    | none =>
      match eTempl with
      | some _ => [Ev.failExit]
      | none =>
        Ev.writeMain ::
        match eCopy with
        | some _ => [Ev.failExit]
        | none =>
          Ev.copyVendor ::
          match eRename with
          | some _ => [Ev.failExit]
          | none =>
            Ev.rewriteImports ::
            match eRun with
            | some _ => [Ev.runChild, Ev.failExit]
            | none =>
              Ev.runChild ::
              match eRemove with
              | some _ => [Ev.failExit]
              | none => [Ev.removeTmp, Ev.printSchema]

/-- C7: the workspace is removed exactly when every step of the pipeline tail
succeeds; every fatal exit leaves the workspace in place; and on the success
path the removal happens before the schema is printed, as shown by the explicit
success trace. -/
theorem workspace_removed_only_on_success
    (eMk eCreate eTempl eCopy eRename eRun eRemove : Option (List Char)) :
    (Ev.removeTmp ∈ mainTailTrace eMk eCreate eTempl eCopy eRename eRun eRemove ↔
      eMk = none ∧ eCreate = none ∧ eTempl = none ∧ eCopy = none ∧
      eRename = none ∧ eRun = none ∧ eRemove = none) ∧
    (Ev.failExit ∈ mainTailTrace eMk eCreate eTempl eCopy eRename eRun eRemove →
      Ev.removeTmp ∉ mainTailTrace eMk eCreate eTempl eCopy eRename eRun eRemove) ∧
    mainTailTrace none none none none none none none =
      [Ev.mkTmp, Ev.writeMain, Ev.copyVendor, Ev.rewriteImports, Ev.runChild,
       Ev.removeTmp, Ev.printSchema] := by
  refine ⟨?_, ?_, rfl⟩ <;>
    cases eMk <;> cases eCreate <;> cases eTempl <;> cases eCopy <;>
      cases eRename <;> cases eRun <;> cases eRemove <;>
      simp [mainTailTrace]

/-- C7 witness: the theorem applied to the all-success run, whose trace removes
the workspace. -/
theorem workspace_removed_only_on_success_witness :
    Ev.removeTmp ∈ mainTailTrace none none none none none none none :=
  (workspace_removed_only_on_success none none none none none none none).1.mpr
    ⟨rfl, rfl, rfl, rfl, rfl, rfl, rfl⟩

/-- Helper for C9: if no scanned line starts with "go ", the version component
of the accumulator stays empty through the whole scan. -/
theorem scanGoModLines_no_go_line (lines : List (List Char))
    (h : ∀ line ∈ lines, (str "go ").isPrefixOf line = false) :
    ∀ m : List Char, (scanGoModLines lines (m, [])).2 = [] := by
  induction lines with
  | nil => intro m; rfl
  | cons line rest ih =>
    intro m
    have hline := h line (List.mem_cons_self line rest)
    have hrest : ∀ l ∈ rest, (str "go ").isPrefixOf l = false :=
      fun l hl => h l (List.mem_cons_of_mem line hl)
    simp only [scanGoModLines]
    by_cases hmod : (str "module ").isPrefixOf line
    · simp only [goModLine, hmod, if_pos, if_true]
      split
      · next hcond => exact absurd rfl hcond.2
      · exact ih hrest _
    · simp only [goModLine, hmod, hline, if_neg, Bool.false_eq_true, if_false]
      split
      · next hcond => exact absurd rfl hcond.2
      · exact ih hrest m

/-- C9: a go.mod whose lines never start with "go " parses to an empty version
string; the empty string is lexically below "1.18", so when the parsed module
name is non-empty the tool fails with the version-floor message rather than any
missing-version diagnostic. -/
theorem missing_go_line_hits_version_floor (content : List Char)
    (hnogo : ∀ line ∈ splitNl content, (str "go ").isPrefixOf line = false)
    (hmod : (parseGoMod content).1 ≠ []) :
    (parseGoMod content).2 = [] ∧
    lexLt [] (str "1.18") = true ∧
    goModChecks (parseGoMod content).1 (parseGoMod content).2 = some verFloorMsg := by
  have hver : (parseGoMod content).2 = [] :=
    scanGoModLines_no_go_line (splitNl content) hnogo []
  refine ⟨hver, by decide, ?_⟩
  rw [hver]
  unfold goModChecks
  rw [if_neg hmod]
  rfl

/-- C9 witness: the theorem applied to the one-line go.mod
"module example.com/app". -/
theorem missing_go_line_hits_version_floor_witness :
    goModChecks (parseGoMod (str "module example.com/app")).1
      (parseGoMod (str "module example.com/app")).2 = some verFloorMsg :=
  (missing_go_line_hits_version_floor (str "module example.com/app")
    (by decide) (by decide)).2.2

/-- Absolute directory, modelled as the list of path components below the
filesystem root; `filepath.Dir` drops the last component and is the identity
exactly at the root. -/
structure AbsDir where
  comps : List (List Char)
deriving DecidableEq

/-- Model of `filepath.Dir` on absolute directory paths. -/
def parentDir (d : AbsDir) : AbsDir := AbsDir.mk d.comps.dropLast

/-- Helper for C10: whenever the parent differs from the directory, its
component list is strictly shorter. -/
theorem parentDir_length_lt (d : AbsDir) (h : parentDir d ≠ d) :
    (parentDir d).comps.length < d.comps.length := by
  obtain ⟨cs⟩ := d
  cases cs with
  | nil => exact absurd rfl h
  | cons a t =>
    simp only [parentDir, List.length_dropLast, List.length_cons]
    omega

/-- Model of `findGoMod` (pinned.go lines 234-245): walk parent directories
upward, returning the first directory whose go.mod probe succeeds, or the
not-found signal (the code's empty string, modelled as `none`) once the parent
equals the current directory. -/
def findGoMod (hasGoMod : AbsDir → Bool) (dir : AbsDir) : Option AbsDir :=
  if hasGoMod dir then some dir
  else if parentDir dir = dir then none
  else findGoMod hasGoMod (parentDir dir)
termination_by dir.comps.length
decreasing_by exact parentDir_length_lt dir (by assumption)

/-- Helper for C10: any directory returned by the walk passes the go.mod
probe, and a not-found answer means even the root fails the probe. -/
theorem findGoMod_sound (hasGoMod : AbsDir → Bool) :
    ∀ n (dir : AbsDir), dir.comps.length ≤ n →
      (∀ found, findGoMod hasGoMod dir = some found → hasGoMod found = true) ∧
      (findGoMod hasGoMod dir = none → hasGoMod (AbsDir.mk []) = false) := by
  intro n
  induction n with
  | zero =>
    intro dir hlen
    have hnil : dir = AbsDir.mk [] := by
      obtain ⟨cs⟩ := dir
      cases cs with
      | nil => rfl
      | cons a t => simp at hlen
    subst hnil
    rw [findGoMod]
    cases hg : hasGoMod (AbsDir.mk []) <;> simp [hg, parentDir]
  | succ n ih =>
    intro dir hlen
    rw [findGoMod]
    by_cases hg : hasGoMod dir = true
    · rw [if_pos hg]
      constructor
      · intro found hf
        injection hf with h1
        rw [← h1]
        exact hg
      · intro hf
        exact Option.noConfusion hf
    · rw [if_neg hg]
      have hg2 : hasGoMod dir = false := by
        cases hgb : hasGoMod dir
        · rfl
        · exact absurd hgb hg
      by_cases hp : parentDir dir = dir
      · rw [if_pos hp]
        constructor
        · intro found hf
          exact Option.noConfusion hf
        · intro _
          have hnil : dir = AbsDir.mk [] := by
            obtain ⟨cs⟩ := dir
            cases cs with
            | nil => rfl
            | cons a t =>
              exfalso
              have hc := congrArg (fun d : AbsDir => d.comps.length) hp
              simp only [parentDir, List.length_dropLast, List.length_cons] at hc
              omega
          rw [← hnil]
          exact hg2
      · rw [if_neg hp]
        have hlt := parentDir_length_lt dir hp
        exact ih (parentDir dir) (by omega)

/-- C10: the module-root search terminates for every input: the parent step
strictly shortens any non-root path, and the walk returns either a directory
that passes the go.mod probe or the not-found signal, in which case not even
the root directory has a go.mod. -/
theorem findGoMod_terminates_and_sound (hasGoMod : AbsDir → Bool) (dir : AbsDir) :
    (parentDir dir ≠ dir → (parentDir dir).comps.length < dir.comps.length) ∧
    (∀ found, findGoMod hasGoMod dir = some found → hasGoMod found = true) ∧
    (findGoMod hasGoMod dir = none → hasGoMod (AbsDir.mk []) = false) := by
  refine ⟨parentDir_length_lt dir, ?_, ?_⟩
  · exact (findGoMod_sound hasGoMod dir.comps.length dir le_rfl).1
  · exact (findGoMod_sound hasGoMod dir.comps.length dir le_rfl).2

/-- C10 witness: the theorem applied to a concrete two-component directory with
a probe that always succeeds. -/
theorem findGoMod_terminates_and_sound_witness :
    (fun _ : AbsDir => true) (AbsDir.mk [str "home", str "user"]) = true :=
  (findGoMod_terminates_and_sound (fun _ => true)
      (AbsDir.mk [str "home", str "user"])).2.1
    (AbsDir.mk [str "home", str "user"]) (by rw [findGoMod]; simp)

/-- Fuel-indexed core of Go `strings.ReplaceAll` on char lists: scan left to
right, and at each position either consume a match of `pat` and emit `rep`, or
emit one character.  The fuel is the length of the remaining input and never
runs out (`replaceAllF_fuel`).  The call sites in the tool always pass a
non-empty pattern (empty dependency names are skipped), so the empty-pattern
behaviour is irrelevant here and modelled as the identity. -/
def replaceAllF (pat rep : List Char) : Nat → List Char → List Char
  | _, [] => []
  | 0, s => s
  | Nat.succ fuel, c :: cs =>
    if pat ≠ [] ∧ pat.isPrefixOf (c :: cs) then
      rep ++ replaceAllF pat rep fuel ((c :: cs).drop pat.length)
    else
      c :: replaceAllF pat rep fuel cs

/-- Model of Go `strings.ReplaceAll(s, pat, rep)` for non-empty `pat`. -/
def replaceAll (pat rep s : List Char) : List Char :=
  replaceAllF pat rep s.length s

/-- Fuel irrelevance: any fuel at least the input length gives the same answer. -/
theorem replaceAllF_fuel (pat rep : List Char) :
    ∀ n m s, s.length ≤ n → s.length ≤ m →
      replaceAllF pat rep n s = replaceAllF pat rep m s := by
  intro n
  induction n with
  | zero =>
    intro m s hn _
    have hs : s = [] := List.eq_nil_of_length_eq_zero (Nat.le_zero.mp hn)
    subst hs
    cases m <;> rfl
  | succ n ih =>
    intro m s hn hm
    cases s with
    | nil => cases m <;> rfl
    | cons c cs =>
      cases m with
      | zero => simp at hm
      | succ m' =>
        simp only [replaceAllF]
        by_cases hcond : pat ≠ [] ∧ pat.isPrefixOf (c :: cs)
        · rw [if_pos hcond, if_pos hcond]
          have hplen : 1 ≤ pat.length := by
            cases hpat : pat with
            | nil => exact absurd hpat hcond.1
            | cons a t => simp
          have hdrop : ((c :: cs).drop pat.length).length ≤ cs.length := by
            simp only [List.length_drop, List.length_cons]
            omega
          rw [ih m' ((c :: cs).drop pat.length)
            (by simp only [List.length_cons] at hn; omega)
            (by simp only [List.length_cons] at hm; omega)]
        · rw [if_neg hcond, if_neg hcond]
          rw [ih m' cs
            (by simp only [List.length_cons] at hn; omega)
            (by simp only [List.length_cons] at hm; omega)]

/-- Unfolding equation of `replaceAll` on a non-empty input. -/
theorem replaceAll_cons (pat rep : List Char) (c : Char) (cs : List Char) :
    replaceAll pat rep (c :: cs) =
      if pat ≠ [] ∧ pat.isPrefixOf (c :: cs) then
        rep ++ replaceAll pat rep ((c :: cs).drop pat.length)
      else
        c :: replaceAll pat rep cs := by
  show replaceAllF pat rep (cs.length + 1) (c :: cs) = _
  rw [replaceAllF]
  by_cases hcond : pat ≠ [] ∧ pat.isPrefixOf (c :: cs)
  · rw [if_pos hcond, if_pos hcond]
    have hplen : 1 ≤ pat.length := by
      cases hpat : pat with
      | nil => exact absurd hpat hcond.1
      | cons a t => simp
    rw [replaceAllF_fuel pat rep cs.length ((c :: cs).drop pat.length).length
      ((c :: cs).drop pat.length)
      (by simp only [List.length_drop, List.length_cons]; omega) le_rfl]
    rfl
  · rw [if_neg hcond, if_neg hcond]
    rfl

/-- A pattern that does not occur in the text leaves it unchanged. -/
theorem replaceAll_of_no_occurrence (pat rep : List Char) :
    ∀ s, ¬ pat <:+: s → replaceAll pat rep s = s := by
  intro s
  induction s with
  | nil => intro _; rfl
  | cons c cs ih =>
    intro h
    rw [replaceAll_cons]
    have hpre : ¬ pat.isPrefixOf (c :: cs) := by
      intro hp
      exact h (List.isPrefixOf_iff_prefix.mp hp).isInfix
    rw [if_neg (by intro hc; exact hpre hc.2)]
    rw [ih (fun hc => h (List.infix_cons hc))]

/-- Per-file rewrite loop of `renameImports` (pinned.go lines 218-225): fold
over the manifest entries in order, skipping empty names, and replace every
occurrence of each name by the prefixed name. -/
def rewriteDeps (depList : List (List Char)) (pfx : List Char)
    (content : List Char) : List Char :=
  depList.foldl
    (fun data dep => if dep = [] then data else replaceAll dep (pfx ++ '/' :: dep) data)
    content

/-- Model of `renameImports` (pinned.go lines 199-232): read the manifest at
root/vendored/deps.txt (a missing manifest is a fatal error, modelled as
`none`), split it on newlines, and rewrite in place every file whose path ends
in ".go"; all other files are left unchanged.  The workspace is modelled as an
association list from walked file path to contents; directories are skipped by
the walk callback and are not modelled. -/
def renameImports (root pfx : List Char) (files : List (List Char × List Char)) :
    Option (List (List Char × List Char)) :=
  match List.lookup (joinPath (joinPath root vendorDirName) depsFileName) files with
  | none => none
  | some manifest =>
    some (files.map (fun f =>
      if (str ".go").isSuffixOf f.1 then (f.1, rewriteDeps (splitNl manifest) pfx f.2)
      else f))

/-- Modelled from the claim wording for comparison: split the manifest into
lines, keep only the non-empty dependency names, and fold the literal
replacement of each name by prefix + "/" + name over the file text. -/
def rewriteDepsSpec (depList : List (List Char)) (pfx : List Char)
    (content : List Char) : List Char :=
  (depList.filter (fun d => !d.isEmpty)).foldl
    (fun data dep => replaceAll dep (pfx ++ '/' :: dep) data)
    content

/-- Modelled from the claim wording for comparison: rewrite exactly the files
whose path ends in ".go" with `rewriteDepsSpec`, leaving the rest unchanged. -/
def renameImportsSpec (root pfx : List Char) (files : List (List Char × List Char)) :
    Option (List (List Char × List Char)) :=
  match List.lookup (joinPath (joinPath root vendorDirName) depsFileName) files with
  | none => none
  | some manifest =>
    some (files.map (fun f =>
      if (str ".go").isSuffixOf f.1 then (f.1, rewriteDepsSpec (splitNl manifest) pfx f.2)
      else f))

/-- Skipping empty names inside the fold is the same as filtering them first. -/
theorem rewriteDeps_eq_spec (depList : List (List Char)) (pfx : List Char) :
    ∀ content, rewriteDeps depList pfx content = rewriteDepsSpec depList pfx content := by
  induction depList with
  | nil => intro content; rfl
  | cons d rest ih =>
    intro content
    by_cases hd : d = []
    · subst hd
      simp only [rewriteDeps, rewriteDepsSpec, List.foldl_cons, List.filter_cons,
        List.isEmpty_nil, Bool.not_true, if_pos, if_true, Bool.false_eq_true, if_false,
        reduceIte]
      exact ih content
    · have hd2 : d.isEmpty = false := by
        cases d with
        | nil => exact absurd rfl hd
        | cons a t => rfl
      simp only [rewriteDeps, rewriteDepsSpec, List.foldl_cons, List.filter_cons, hd2,
        Bool.not_false, if_neg hd, if_true]
      exact ih (replaceAll d (pfx ++ '/' :: d) content)

/-- C2: the import-rewrite pass reads the manifest from the materialized
workspace, and transforms exactly the ".go" files by replacing, for each
non-empty manifest name in order, every literal occurrence with
prefix + "/" + name, leaving every other file unchanged; and the prefix
computed by main (pinned.go line 148) is import_path joined with the
temporary-directory name and "vendored". -/
theorem renameImports_spec (root pfx importPath : List Char)
    (files : List (List Char × List Char)) :
    renameImports root pfx files = renameImportsSpec root pfx files ∧
    joinPath (joinPath importPath tmpDirName) vendorDirName =
      importPath ++ str "/jsonschema-gen/vendored" := by
  constructor
  · unfold renameImports renameImportsSpec
    cases List.lookup (joinPath (joinPath root vendorDirName) depsFileName) files with
    | none => rfl
    | some manifest =>
      simp only [Option.some.injEq]
      apply List.map_congr_left
      intro f _
      rw [rewriteDeps_eq_spec]
  · simp only [joinPath, tmpDirName, vendorDirName, List.append_assoc]
    rfl

/-- A newline-free pattern that is a prefix of `xs ++ '\n' :: ys` already stops
inside `xs`. -/
theorem prefix_stops_before_newline (pat xs ys : List Char) (hnl : '\n' ∉ pat)
    (hp : pat <+: xs ++ '\n' :: ys) : pat <+: xs ∧ pat.length ≤ xs.length := by
  have hlen : pat.length ≤ xs.length := by
    by_contra hgt
    push_neg at hgt
    have hip : xs.length < (xs ++ '\n' :: ys).length := by
      simp only [List.length_append, List.length_cons]
      omega
    have hchar : pat.get ⟨xs.length, hgt⟩ = '\n' := by
      have h1 := hp.getElem hgt
      rw [List.getElem_append_right (le_refl xs.length)] at h1
      simpa using h1
    exact hnl (hchar ▸ List.get_mem pat xs.length hgt)
  have heq : pat = (xs ++ '\n' :: ys).take pat.length := List.prefix_iff_eq_take.mp hp
  rw [List.take_append_of_le_length hlen] at heq
  exact ⟨heq ▸ List.take_prefix pat.length xs, hlen⟩

/-- Replacing a non-empty, newline-free pattern never matches across a newline,
so the replacement distributes over a newline split (fuel-indexed induction). -/
theorem replaceAll_split_newline_aux (pat rep : List Char) (hne : pat ≠ [])
    (hnl : '\n' ∉ pat) :
    ∀ n xs ys, xs.length ≤ n →
      replaceAll pat rep (xs ++ '\n' :: ys) =
        replaceAll pat rep xs ++ '\n' :: replaceAll pat rep ys := by
  have hhead : ∀ ys : List Char,
      replaceAll pat rep ('\n' :: ys) = '\n' :: replaceAll pat rep ys := by
    intro ys
    rw [replaceAll_cons]
    rw [if_neg ?head]
    case head =>
      rintro ⟨-, hpre⟩
      obtain ⟨rest, hrest⟩ := List.isPrefixOf_iff_prefix.mp hpre
      cases pat with
      | nil => exact hne rfl
      | cons a t =>
        have ha : a = '\n' := by
          have := congrArg (fun l => l.head?) hrest
          simpa using this
        exact hnl (ha ▸ List.mem_cons_self a t)
  intro n
  induction n with
  | zero =>
    intro xs ys hn
    have hxs : xs = [] := List.eq_nil_of_length_eq_zero (Nat.le_zero.mp hn)
    subst hxs
    simpa using hhead ys
  | succ n ih =>
    intro xs ys hn
    cases xs with
    | nil => simpa using hhead ys
    | cons c cs =>
      rw [List.cons_append, replaceAll_cons]
      by_cases hp : pat.isPrefixOf (c :: (cs ++ '\n' :: ys))
      · rw [if_pos ⟨hne, hp⟩]
        have hpre : pat <+: (c :: cs) ++ '\n' :: ys := by
          rw [List.cons_append]
          exact List.isPrefixOf_iff_prefix.mp hp
        obtain ⟨hpx, hlenx⟩ := prefix_stops_before_newline pat (c :: cs) ys hnl hpre
        have hdrop : (c :: (cs ++ '\n' :: ys)).drop pat.length =
            ((c :: cs).drop pat.length) ++ '\n' :: ys := by
          rw [← List.cons_append]
          exact List.drop_append_of_le_length hlenx
        rw [hdrop]
        have hplen : 1 ≤ pat.length := by
          cases hpat : pat with
          | nil => exact absurd hpat hne
          | cons a t => simp
        have hlen2 : ((c :: cs).drop pat.length).length ≤ n := by
          simp only [List.length_drop, List.length_cons]
          simp only [List.length_cons] at hn
          omega
        rw [ih ((c :: cs).drop pat.length) ys hlen2]
        rw [replaceAll_cons, if_pos ⟨hne, List.isPrefixOf_iff_prefix.mpr hpx⟩]
        rw [List.append_assoc]
      · rw [if_neg (fun hc => hp hc.2)]
        have hlen2 : cs.length ≤ n := by
          simp only [List.length_cons] at hn
          omega
        rw [ih cs ys hlen2]
        have hp2 : ¬ pat.isPrefixOf (c :: cs) := by
          intro hc
          apply hp
          apply List.isPrefixOf_iff_prefix.mpr
          have h1 := List.isPrefixOf_iff_prefix.mp hc
          calc pat <+: c :: cs := h1
            _ <+: (c :: cs) ++ '\n' :: ys := List.prefix_append (c :: cs) ('\n' :: ys)
        rw [replaceAll_cons, if_neg (fun hc => hp2 hc.2)]
        rfl

/-- Replacement of a non-empty, newline-free pattern distributes over a
newline split. -/
theorem replaceAll_split_newline (pat rep : List Char) (hne : pat ≠ [])
    (hnl : '\n' ∉ pat) (xs ys : List Char) :
    replaceAll pat rep (xs ++ '\n' :: ys) =
      replaceAll pat rep xs ++ '\n' :: replaceAll pat rep ys :=
  replaceAll_split_newline_aux pat rep hne hnl xs.length xs ys le_rfl

/-- The whole rewrite pass distributes over a newline split of the file text
when every manifest entry is newline-free. -/
theorem rewriteDeps_split_newline (pfx : List Char) :
    ∀ depList : List (List Char), (∀ dep ∈ depList, '\n' ∉ dep) →
      ∀ xs ys, rewriteDeps depList pfx (xs ++ '\n' :: ys) =
        rewriteDeps depList pfx xs ++ '\n' :: rewriteDeps depList pfx ys := by
  intro depList
  induction depList with
  | nil => intro _ xs ys; rfl
  | cons d rest ih =>
    intro h xs ys
    have hrest : ∀ dep ∈ rest, '\n' ∉ dep :=
      fun dep hd => h dep (List.mem_cons_of_mem d hd)
    simp only [rewriteDeps, List.foldl_cons]
    by_cases hd : d = []
    · rw [if_pos hd, if_pos hd, if_pos hd]
      exact ih hrest xs ys
    · rw [if_neg hd, if_neg hd, if_neg hd]
      rw [replaceAll_split_newline d (pfx ++ '/' :: d) hd (h d (List.mem_cons_self d rest))]
      exact ih hrest (replaceAll d (pfx ++ '/' :: d) xs) (replaceAll d (pfx ++ '/' :: d) ys)

/-- A line containing no manifest entry is left unchanged by the rewrite pass. -/
theorem rewriteDeps_of_no_occurrence (pfx line : List Char) :
    ∀ depList : List (List Char), (∀ dep ∈ depList, dep ≠ [] → ¬ dep <:+: line) →
      rewriteDeps depList pfx line = line := by
  intro depList
  induction depList with
  | nil => intro _; rfl
  | cons d rest ih =>
    intro h
    have hrest : ∀ dep ∈ rest, dep ≠ [] → ¬ dep <:+: line :=
      fun dep hd => h dep (List.mem_cons_of_mem d hd)
    simp only [rewriteDeps, List.foldl_cons]
    by_cases hd : d = []
    · rw [if_pos hd]
      exact ih hrest
    · rw [if_neg hd, replaceAll_of_no_occurrence d (pfx ++ '/' :: d) line
        (h d (List.mem_cons_self d rest) hd)]
      exact ih hrest

/-- Parts produced by the newline split never contain a newline. -/
theorem splitNl_no_newline : ∀ s : List Char, ∀ part ∈ splitNl s, '\n' ∉ part := by
  intro s
  induction s with
  | nil =>
    intro part hp
    simp only [splitNl, List.mem_singleton] at hp
    subst hp
    simp
  | cons c cs ih =>
    intro part hp
    by_cases hc : c = '\n'
    · simp only [splitNl, if_pos hc] at hp
      rcases List.mem_cons.mp hp with h1 | h1
      · subst h1; simp
      · exact ih part h1
    · simp only [splitNl, if_neg hc] at hp
      cases hsp : splitNl cs with
      | nil =>
        rw [hsp] at hp
        simp only [List.mem_singleton] at hp
        subst hp
        intro hmem
        rcases List.mem_cons.mp hmem with h2 | h2
        · exact hc h2.symm
        · simp at h2
      | cons t ts =>
        rw [hsp] at hp
        rcases List.mem_cons.mp hp with h1 | h1
        · subst h1
          intro hmem
          rcases List.mem_cons.mp hmem with h2 | h2
          · exact hc h2.symm
          · exact ih t (hsp ▸ List.mem_cons_self t ts) h2
        · exact ih part (hsp ▸ List.mem_cons_of_mem t h1)

/-- Double-quote character, used to build Go source lines in the model. -/
def dq : Char := Char.ofNat 34

/-- The entry point's reference to the target package, as synthesized by the
template: the keyword, a space, and the quoted import path. -/
def importLineFor (importPath : List Char) : List Char :=
  str "import " ++ dq :: (importPath ++ [dq])

/-- C3 counterexample: with the manifest entry "example.com/dep" and a target
module whose computed path "example.com/dependency" contains that entry as a
literal substring, the rewrite pass changes the synthesized entry point's
reference to the target package, so its line is not byte-for-byte untouched. -/
theorem entry_import_line_clobbered :
    renameImports (str "/w/jsonschema-gen") (str "m/jsonschema-gen/vendored")
      [(str "/w/jsonschema-gen/vendored/deps.txt", str "example.com/dep"),
       (str "/w/jsonschema-gen/main.go", importLineFor (str "example.com/dependency"))] =
      some
        [(str "/w/jsonschema-gen/vendored/deps.txt", str "example.com/dep"),
         (str "/w/jsonschema-gen/main.go",
          importLineFor (str "m/jsonschema-gen/vendored/example.com/dependency"))] ∧
    importLineFor (str "m/jsonschema-gen/vendored/example.com/dependency") ≠
      importLineFor (str "example.com/dependency") := by
  constructor
  · rfl
  · decide

/-- C3 (amended): the rewrite pass leaves the entry point's line that names the
target package byte-for-byte untouched provided no non-empty manifest entry
occurs as a literal substring of that line; the surrounding lines of the file
are rewritten independently while that line itself is preserved. -/
theorem entry_import_line_preserved (root pfx : List Char)
    (files : List (List Char × List Char))
    (mainPath pre line post manifest : List Char)
    (hman : List.lookup (joinPath (joinPath root vendorDirName) depsFileName) files =
      some manifest)
    (hgo : (str ".go").isSuffixOf mainPath = true)
    (hmem : (mainPath, pre ++ '\n' :: (line ++ '\n' :: post)) ∈ files)
    (hline : ∀ dep ∈ splitNl manifest, dep ≠ [] → ¬ dep <:+: line) :
    ∃ out, renameImports root pfx files = some out ∧
      (mainPath,
        rewriteDeps (splitNl manifest) pfx pre ++
          '\n' :: (line ++ '\n' :: rewriteDeps (splitNl manifest) pfx post)) ∈ out := by
  have hnl : ∀ dep ∈ splitNl manifest, '\n' ∉ dep := splitNl_no_newline manifest
  refine ⟨_, by rw [renameImports, hman], ?_⟩
  have hmap := List.mem_map_of_mem
    (fun f : List Char × List Char =>
      if (str ".go").isSuffixOf f.1 then (f.1, rewriteDeps (splitNl manifest) pfx f.2)
      else f) hmem
  simp only [hgo, if_pos, if_true] at hmap
  have hsplit : rewriteDeps (splitNl manifest) pfx (pre ++ '\n' :: (line ++ '\n' :: post)) =
      rewriteDeps (splitNl manifest) pfx pre ++
        '\n' :: (line ++ '\n' :: rewriteDeps (splitNl manifest) pfx post) := by
    rw [rewriteDeps_split_newline pfx (splitNl manifest) hnl pre (line ++ '\n' :: post)]
    rw [rewriteDeps_split_newline pfx (splitNl manifest) hnl line post]
    rw [rewriteDeps_of_no_occurrence pfx line (splitNl manifest) hline]
  rw [hsplit] at hmap
  exact hmap

/-- C3 witness: the amended theorem applied to a workspace whose entry point
names the target package "example.com/app", a line in which the single
manifest entry "github.com/invopop/jsonschema" does not occur. -/
theorem entry_import_line_preserved_witness :
    ∃ out,
      renameImports (str "/w/jsonschema-gen") (str "m/jsonschema-gen/vendored")
        [(str "/w/jsonschema-gen/vendored/deps.txt", str "github.com/invopop/jsonschema"),
         (str "/w/jsonschema-gen/main.go",
          str "package main" ++ '\n' :: (importLineFor (str "example.com/app") ++
            '\n' :: importLineFor (str "github.com/invopop/jsonschema")))] = some out ∧
      (str "/w/jsonschema-gen/main.go",
        rewriteDeps (splitNl (str "github.com/invopop/jsonschema"))
            (str "m/jsonschema-gen/vendored") (str "package main") ++
          '\n' :: (importLineFor (str "example.com/app") ++
            '\n' :: rewriteDeps (splitNl (str "github.com/invopop/jsonschema"))
              (str "m/jsonschema-gen/vendored")
              (importLineFor (str "github.com/invopop/jsonschema")))) ∈ out :=
  entry_import_line_preserved (str "/w/jsonschema-gen")
    (str "m/jsonschema-gen/vendored")
    [(str "/w/jsonschema-gen/vendored/deps.txt", str "github.com/invopop/jsonschema"),
     (str "/w/jsonschema-gen/main.go",
      str "package main" ++ '\n' :: (importLineFor (str "example.com/app") ++
        '\n' :: importLineFor (str "github.com/invopop/jsonschema")))]
    (str "/w/jsonschema-gen/main.go") (str "package main")
    (importLineFor (str "example.com/app"))
    (importLineFor (str "github.com/invopop/jsonschema"))
    (str "github.com/invopop/jsonschema")
    (by rfl) (by decide) (by decide) (by decide)
